import Mathlib

/-!
Shallow embedding of the `playfair_cipher_rs` crate (src/src/lib.rs).

Rust `String`s are modelled as `List Char`.  The two panicking operations,
`unreachable!` in `get_index` and `Option::unwrap` in `decrypt`, are modelled
by `Option`-returning functions where `none` is the panic.  `str::to_uppercase`
is modelled on the ASCII range by `Char.toUpper`, which agrees with Rust there;
every input exercised by the claims is ASCII.
-/

namespace PlayfairRs

/-- `ALPHABET` from lib.rs: all the letters of the English alphabet except J. -/
def ALPHABET : List Char := "ABCDEFGHIKLMNOPQRSTUVWXYZ".toList

/-- `FILLER` from lib.rs: the filler letter used to separate duplicate
plaintext letters and to pad a trailing single letter. -/
def FILLER : Char := 'X'

/-- `TABLE_SIZE` from lib.rs: the Playfair table is 5 by 5. -/
def TABLE_SIZE : Nat := 5

/-- The normalization `s.to_uppercase().replace(' ', "").replace('J', "I")`
performed both by `create_table` on the key and by `encrypt` on the
plaintext: uppercase, drop spaces, then merge J into I. -/
def normalizeInput (s : List Char) : List Char :=
  ((s.map Char.toUpper).filter fun c => c != ' ').map fun c => if c = 'J' then 'I' else c

/-- The dedup-push loop of `create_table`:
`if !temp.contains(&c) { temp.push(c) }` folded over a character list. -/
def fillUnique (temp : List Char) : List Char → List Char
  | [] => temp
  | c :: cs => if c ∈ temp then fillUnique temp cs else fillUnique (temp ++ [c]) cs

/-- `Playfair::create_table`: normalize the key, push its distinct letters in
order of first appearance, then the rest of `ALPHABET`; the 5x5 `table` array
is filled row-major from the first 25 entries (`table[i][j] = temp[i*5+j]`),
so the table is the row-major list of those 25 entries.  The default `' '` is
the value the Rust code pre-fills the array with. -/
def Playfair.create_table (key : List Char) : List Char :=
  let temp := fillUnique (fillUnique [] (normalizeInput key)) ALPHABET
  (List.range (TABLE_SIZE * TABLE_SIZE)).map fun n => temp.getD n ' '

/-- `self.table[i][j]` on the row-major table list. -/
def tableAt (t : List Char) (i j : Nat) : Char := t.getD (i * TABLE_SIZE + j) ' '

/-- The nested row-major scan of `get_index`, returning the flat index of the
first cell holding `c` (the Rust loop visits `table[i][j]` in exactly this
order and returns at the first hit). -/
def findPos (c : Char) : List Char → Option Nat
  | [] => none
  | a :: as => if a = c then some 0 else (findPos c as).map (· + 1)

/-- `Playfair::get_index`: the `(row, col)` of the first matching cell;
`none` models the `unreachable!` panic taken when `c` is not in the table. -/
def Playfair.get_index (t : List Char) (c : Char) : Option (Nat × Nat) :=
  (findPos c t).map fun n => (n / TABLE_SIZE, n % TABLE_SIZE)

/-- `Playfair::encrypt_pair`: same row shifts right, same column shifts down
(both wrapping modulo `TABLE_SIZE`), otherwise the rectangle rule
`(table[row1][col2], table[row2][col1])`.  `none` models the panic inside
`get_index` when a letter is not in the table. -/
def Playfair.encrypt_pair (t : List Char) (c1 c2 : Char) : Option (List Char) :=
  match Playfair.get_index t c1, Playfair.get_index t c2 with
  | some (row1, col1), some (row2, col2) =>
    if row1 = row2 then
      some [tableAt t row1 ((col1 + 1) % TABLE_SIZE),
            tableAt t row2 ((col2 + 1) % TABLE_SIZE)]
    else if col1 = col2 then
      some [tableAt t ((row1 + 1) % TABLE_SIZE) col1,
            tableAt t ((row2 + 1) % TABLE_SIZE) col2]
    else
      some [tableAt t row1 col2, tableAt t row2 col1]
  | _, _ => none

/-- `Playfair::decrypt_pair`: same row shifts left, same column shifts up
(both wrapping modulo `TABLE_SIZE`), otherwise the same rectangle rule as
encryption. -/
def Playfair.decrypt_pair (t : List Char) (c1 c2 : Char) : Option (List Char) :=
  match Playfair.get_index t c1, Playfair.get_index t c2 with
  | some (row1, col1), some (row2, col2) =>
    if row1 = row2 then
      some [tableAt t row1 ((col1 + TABLE_SIZE - 1) % TABLE_SIZE),
            tableAt t row2 ((col2 + TABLE_SIZE - 1) % TABLE_SIZE)]
    else if col1 = col2 then
      some [tableAt t ((row1 + TABLE_SIZE - 1) % TABLE_SIZE) col1,
            tableAt t ((row2 + TABLE_SIZE - 1) % TABLE_SIZE) col2]
    else
      some [tableAt t row1 col2, tableAt t row2 col1]
  | _, _ => none

/-- The `while let Some(c1) = chars.next()` loop of `Playfair::encrypt` over
the already-normalized text.  With one letter left, `peek` is `None` so
`c2 = FILLER`; whether or not `c1 = FILLER`, the loop pushes
`encrypt_pair(c1, FILLER)` and the next iteration ends the loop, so that case
is exactly `encrypt_pair t c1 FILLER`.  With two or more letters left, a
doubled letter is paired with `FILLER` and the second occurrence is not
consumed; otherwise both letters are consumed. -/
def encryptLoop (t : List Char) : List Char → Option (List Char)
  | [] => some []
  | [c1] => Playfair.encrypt_pair t c1 FILLER
  | c1 :: c2 :: rest =>
    if c1 = c2 then
      (Playfair.encrypt_pair t c1 FILLER).bind fun p =>
        (encryptLoop t (c2 :: rest)).map fun r => p ++ r
    else
      (Playfair.encrypt_pair t c1 c2).bind fun p =>
        (encryptLoop t rest).map fun r => p ++ r

/-- The loop of `Playfair::decrypt`: the ciphertext is consumed two letters at
a time with no normalization and no filler logic; `chars.next().unwrap()` on
an odd tail is the panic, modelled by `none`. -/
def decryptLoop (t : List Char) : List Char → Option (List Char)
  | [] => some []
  | [_] => none
  | c1 :: c2 :: rest =>
    (Playfair.decrypt_pair t c1 c2).bind fun p =>
      (decryptLoop t rest).map fun r => p ++ r

/-- The digraph splitting performed by the `encrypt` loop, separated from the
per-pair substitution: the same case analysis as `encryptLoop`, collecting
the pairs handed to `encrypt_pair`. -/
def splitPairs : List Char → List (Char × Char)
  | [] => []
  | [c1] => [(c1, FILLER)]
  | c1 :: c2 :: rest =>
    if c1 = c2 then (c1, FILLER) :: splitPairs (c2 :: rest)
    else (c1, c2) :: splitPairs rest

/-- Applying `encrypt_pair` to an explicit list of digraphs and concatenating
the results in order. -/
def encryptPairs (t : List Char) : List (Char × Char) → Option (List Char)
  | [] => some []
  | (a, b) :: ps =>
    (Playfair.encrypt_pair t a b).bind fun p =>
      (encryptPairs t ps).map fun r => p ++ r

/-- Concatenation of a list of digraphs back into a character list: the
"filler-padded, I/J-merged, space-stripped, uppercased form" when applied to
`splitPairs` of the normalized plaintext. -/
def joinPairs : List (Char × Char) → List Char
  | [] => []
  | (a, b) :: ps => a :: b :: joinPairs ps

/-- The `Playfair` struct from lib.rs: the key and the 5x5 table it
generates, kept row-major. -/
structure Playfair where
  key : List Char
  table : List Char
  deriving DecidableEq

/-- `Playfair::new`. -/
def Playfair.new (key : List Char) : Playfair :=
  { key := key, table := Playfair.create_table key }

/-- `Playfair::encrypt`: normalize, then run the pairing-and-substitution
loop.  `none` models a panic inside `get_index`. -/
def Playfair.encrypt (self : Playfair) (plain_text : List Char) : Option (List Char) :=
  encryptLoop self.table (normalizeInput plain_text)

/-- `Playfair::decrypt`: no normalization, consume two letters at a time.
`none` models a panic (unwrap on odd length, or `get_index` miss). -/
def Playfair.decrypt (self : Playfair) (cipher_text : List Char) : Option (List Char) :=
  decryptLoop self.table cipher_text

/-! Part: Basic facts about the table scan -/

theorem getD_mem_of_lt (l : List Char) (n : Nat) (d : Char) (h : n < l.length) :
    l.getD n d ∈ l := by
  induction l generalizing n with
  | nil => simp at h
  | cons a as ih =>
    cases n with
    | zero => simp [List.getD]
    | succ m =>
      simp only [List.getD_cons_succ]
      exact List.mem_cons_of_mem a (ih m (by simpa using h))

theorem findPos_some (c : Char) (l : List Char) (n : Nat) (h : findPos c l = some n) :
    n < l.length ∧ l.getD n ' ' = c := by
  induction l generalizing n with
  | nil => simp [findPos] at h
  | cons a as ih =>
    by_cases hac : a = c
    · simp [findPos, hac] at h
      subst h
      simp [List.getD, hac]
    · simp [findPos, hac] at h
      obtain ⟨m, hm, rfl⟩ := h
      obtain ⟨h1, h2⟩ := ih m hm
      exact ⟨by simpa using h1, by simpa [List.getD_cons_succ] using h2⟩

theorem findPos_of_mem (c : Char) (l : List Char) (h : c ∈ l) :
    ∃ n, findPos c l = some n := by
  induction l with
  | nil => simp at h
  | cons a as ih =>
    by_cases hac : a = c
    · exact ⟨0, by simp [findPos, hac]⟩
    · obtain ⟨m, hm⟩ := ih (by rcases List.mem_cons.1 h with h' | h' <;> simp_all)
      exact ⟨m + 1, by simp [findPos, hac, hm]⟩

theorem findPos_none_of_not_mem (c : Char) (l : List Char) (h : c ∉ l) :
    findPos c l = none := by
  induction l with
  | nil => simp [findPos]
  | cons a as ih =>
    have hac : a ≠ c := fun h' => h (h' ▸ List.mem_cons_self a as)
    simp only [findPos, if_neg hac, Option.map_eq_none']
    exact ih fun h' => h (List.mem_cons_of_mem a h')

theorem findPos_getD (l : List Char) (hnd : l.Nodup) (n : Nat) (h : n < l.length) :
    findPos (l.getD n ' ') l = some n := by
  induction l generalizing n with
  | nil => simp at h
  | cons a as ih =>
    obtain ⟨hna, hnd'⟩ := List.nodup_cons.1 hnd
    cases n with
    | zero => simp [findPos, List.getD]
    | succ m =>
      have hm : m < as.length := by simpa using h
      have hmem : as.getD m ' ' ∈ as := getD_mem_of_lt as m ' ' hm
      have hne : a ≠ as.getD m ' ' := fun h' => hna (h' ▸ hmem)
      rw [List.getD_cons_succ]
      simp only [findPos]
      rw [if_neg hne, ih hnd' m hm]
      rfl

/-! Part: Facts about `get_index` on a well-formed 25-cell table -/

theorem get_index_eq_some (t : List Char) (c : Char) (r co : Nat)
    (h25 : t.length = 25) (h : Playfair.get_index t c = some (r, co)) :
    r < 5 ∧ co < 5 ∧ tableAt t r co = c := by
  simp only [Playfair.get_index, Option.map_eq_some'] at h
  obtain ⟨n, hn, hpair⟩ := h
  obtain ⟨hlt, hgd⟩ := findPos_some c t n hn
  rw [h25] at hlt
  have hr : r = n / 5 := by simpa [TABLE_SIZE] using (congrArg Prod.fst hpair).symm
  have hco : co = n % 5 := by simpa [TABLE_SIZE] using (congrArg Prod.snd hpair).symm
  subst hr hco
  refine ⟨by omega, by omega, ?_⟩
  have : n / 5 * TABLE_SIZE + n % 5 = n := by simp [TABLE_SIZE]; omega
  rw [tableAt, this, hgd]

theorem get_index_tableAt (t : List Char) (h25 : t.length = 25) (hnd : t.Nodup)
    (i j : Nat) (hi : i < 5) (hj : j < 5) :
    Playfair.get_index t (tableAt t i j) = some (i, j) := by
  have hlt : i * TABLE_SIZE + j < t.length := by simp [TABLE_SIZE]; omega
  have := findPos_getD t hnd (i * TABLE_SIZE + j) hlt
  rw [Playfair.get_index, tableAt, this]
  simp only [Option.map_some']
  have h1 : (i * TABLE_SIZE + j) / TABLE_SIZE = i := by simp only [TABLE_SIZE]; omega
  have h2 : (i * TABLE_SIZE + j) % TABLE_SIZE = j := by simp only [TABLE_SIZE]; omega
  rw [h1, h2]

theorem get_index_of_mem (t : List Char) (c : Char) (h : c ∈ t) :
    ∃ r co, Playfair.get_index t c = some (r, co) := by
  obtain ⟨n, hn⟩ := findPos_of_mem c t h
  exact ⟨n / TABLE_SIZE, n % TABLE_SIZE, by simp [Playfair.get_index, hn]⟩

theorem get_index_none_of_not_mem (t : List Char) (c : Char) (h : c ∉ t) :
    Playfair.get_index t c = none := by
  simp [Playfair.get_index, findPos_none_of_not_mem c t h]

theorem tableAt_inj (t : List Char) (h25 : t.length = 25) (hnd : t.Nodup)
    (i j i' j' : Nat) (hi : i < 5) (hj : j < 5) (hi' : i' < 5) (hj' : j' < 5)
    (heq : tableAt t i j = tableAt t i' j') : i = i' ∧ j = j' := by
  have h1 := get_index_tableAt t h25 hnd i j hi hj
  have h2 := get_index_tableAt t h25 hnd i' j' hi' hj'
  rw [heq, h2] at h1
  have h3 := Option.some_inj.1 h1
  exact ⟨(congrArg Prod.fst h3).symm, (congrArg Prod.snd h3).symm⟩

/-! Part: The table built by `create_table` -/

theorem mem_fillUnique (c : Char) (cs : List Char) :
    ∀ temp, c ∈ fillUnique temp cs ↔ c ∈ temp ∨ c ∈ cs := by
  induction cs with
  | nil => intro temp; simp [fillUnique]
  | cons a as ih =>
    intro temp
    by_cases ha : a ∈ temp
    · rw [fillUnique, if_pos ha, ih]
      constructor
      · rintro (h | h)
        · exact Or.inl h
        · exact Or.inr (List.mem_cons_of_mem a h)
      · rintro (h | h)
        · exact Or.inl h
        · rcases List.mem_cons.1 h with rfl | h
          · exact Or.inl ha
          · exact Or.inr h
    · rw [fillUnique, if_neg ha, ih]
      simp only [List.mem_append, List.mem_singleton, List.mem_cons]
      tauto

theorem nodup_fillUnique (cs : List Char) :
    ∀ temp, temp.Nodup → (fillUnique temp cs).Nodup := by
  induction cs with
  | nil => intro temp h; exact h
  | cons a as ih =>
    intro temp h
    by_cases ha : a ∈ temp
    · rw [fillUnique, if_pos ha]; exact ih temp h
    · rw [fillUnique, if_neg ha]
      refine ih _ ?_
      rw [List.nodup_append]
      refine ⟨h, List.nodup_singleton a, ?_⟩
      intro x hx hxa
      rw [List.mem_singleton] at hxa
      exact ha (hxa ▸ hx)

theorem range_map_getD (l : List Char) (d : Char) :
    (List.range l.length).map (fun n => l.getD n d) = l := by
  apply List.ext_getElem
  · simp
  · intro i h1 h2
    simp only [List.getElem_map, List.getElem_range]
    exact List.getD_eq_getElem l d h2

/-- For a key whose normalized form stays inside the reduced alphabet, the
`temp` sequence of `create_table` has exactly the 25 alphabet letters and the
table is that sequence itself. -/
theorem create_table_spec (key : List Char)
    (hkey : ∀ c ∈ normalizeInput key, c ∈ ALPHABET) :
    (Playfair.create_table key).length = 25 ∧ (Playfair.create_table key).Nodup ∧
      ∀ c, c ∈ Playfair.create_table key ↔ c ∈ ALPHABET := by
  have htmem : ∀ c, c ∈ fillUnique (fillUnique [] (normalizeInput key)) ALPHABET ↔
      c ∈ ALPHABET := by
    intro c
    rw [mem_fillUnique, mem_fillUnique]
    constructor
    · rintro ((h | h) | h)
      · simp at h
      · exact hkey c h
      · exact h
    · exact fun h => Or.inr h
  have htnd : (fillUnique (fillUnique [] (normalizeInput key)) ALPHABET).Nodup :=
    nodup_fillUnique _ _ (nodup_fillUnique _ _ List.nodup_nil)
  have halphand : ALPHABET.Nodup := by decide
  have hperm : (fillUnique (fillUnique [] (normalizeInput key)) ALPHABET).Perm ALPHABET :=
    (List.perm_ext_iff_of_nodup htnd halphand).2 htmem
  have hlen : (fillUnique (fillUnique [] (normalizeInput key)) ALPHABET).length = 25 :=
    hperm.length_eq.trans (by decide)
  have htable : Playfair.create_table key =
      fillUnique (fillUnique [] (normalizeInput key)) ALPHABET := by
    rw [Playfair.create_table]
    show (List.range (TABLE_SIZE * TABLE_SIZE)).map _ = _
    have h55 : TABLE_SIZE * TABLE_SIZE =
        (fillUnique (fillUnique [] (normalizeInput key)) ALPHABET).length := by
      rw [hlen]; rfl
    rw [h55, range_map_getD]
  rw [htable]
  exact ⟨hlen, htnd, htmem⟩

/-! Part: The pair substitution and its inverse -/

theorem modTS_lt (x : Nat) : x % TABLE_SIZE < 5 := Nat.mod_lt _ (by decide)

/-- On a 25-cell duplicate-free table, encrypting any pair of table letters
succeeds with a two-letter result, and decrypting that result restores the
original pair exactly. -/
theorem encrypt_decrypt_pair (t : List Char) (h25 : t.length = 25) (hnd : t.Nodup)
    (a b : Char) (ha : a ∈ t) (hb : b ∈ t) :
    ∃ d1 d2, Playfair.encrypt_pair t a b = some [d1, d2] ∧
      Playfair.decrypt_pair t d1 d2 = some [a, b] := by
  obtain ⟨r1, c1, hga⟩ := get_index_of_mem t a ha
  obtain ⟨r2, c2, hgb⟩ := get_index_of_mem t b hb
  obtain ⟨hr1, hc1, hta⟩ := get_index_eq_some t a r1 c1 h25 hga
  obtain ⟨hr2, hc2, htb⟩ := get_index_eq_some t b r2 c2 h25 hgb
  by_cases hrow : r1 = r2
  · subst hrow
    refine ⟨tableAt t r1 ((c1 + 1) % TABLE_SIZE), tableAt t r1 ((c2 + 1) % TABLE_SIZE), ?_, ?_⟩
    · simp [Playfair.encrypt_pair, hga, hgb]
    · have hia := get_index_tableAt t h25 hnd r1 ((c1 + 1) % TABLE_SIZE) hr1 (modTS_lt _)
      have hib := get_index_tableAt t h25 hnd r1 ((c2 + 1) % TABLE_SIZE) hr1 (modTS_lt _)
      have e1 : ((c1 + 1) % TABLE_SIZE + TABLE_SIZE - 1) % TABLE_SIZE = c1 := by
        simp only [TABLE_SIZE]; omega
      have e2 : ((c2 + 1) % TABLE_SIZE + TABLE_SIZE - 1) % TABLE_SIZE = c2 := by
        simp only [TABLE_SIZE]; omega
      simp [Playfair.decrypt_pair, hia, hib, e1, e2, hta, htb]
  · by_cases hcol : c1 = c2
    · subst hcol
      refine ⟨tableAt t ((r1 + 1) % TABLE_SIZE) c1, tableAt t ((r2 + 1) % TABLE_SIZE) c1, ?_, ?_⟩
      · simp [Playfair.encrypt_pair, hga, hgb, hrow]
      · have hia := get_index_tableAt t h25 hnd ((r1 + 1) % TABLE_SIZE) c1 (modTS_lt _) hc1
        have hib := get_index_tableAt t h25 hnd ((r2 + 1) % TABLE_SIZE) c1 (modTS_lt _) hc2
        have hne : ¬((r1 + 1) % TABLE_SIZE = (r2 + 1) % TABLE_SIZE) := by
          simp only [TABLE_SIZE]; omega
        have e1 : ((r1 + 1) % TABLE_SIZE + TABLE_SIZE - 1) % TABLE_SIZE = r1 := by
          simp only [TABLE_SIZE]; omega
        have e2 : ((r2 + 1) % TABLE_SIZE + TABLE_SIZE - 1) % TABLE_SIZE = r2 := by
          simp only [TABLE_SIZE]; omega
        simp [Playfair.decrypt_pair, hia, hib, hne, e1, e2, hta, htb]
    · refine ⟨tableAt t r1 c2, tableAt t r2 c1, ?_, ?_⟩
      · simp [Playfair.encrypt_pair, hga, hgb, hrow, hcol]
      · have hia := get_index_tableAt t h25 hnd r1 c2 hr1 hc2
        have hib := get_index_tableAt t h25 hnd r2 c1 hr2 hc1
        have hcol' : ¬(c2 = c1) := fun h => hcol h.symm
        simp [Playfair.decrypt_pair, hia, hib, hrow, hcol', hta, htb]

/-- A successful `encrypt_pair` always produces exactly two letters. -/
theorem encrypt_pair_length (t : List Char) (a b : Char) (p : List Char)
    (h : Playfair.encrypt_pair t a b = some p) : p.length = 2 := by
  rw [Playfair.encrypt_pair] at h
  split at h
  · split at h
    · obtain rfl := Option.some_inj.1 h; rfl
    · split at h
      · obtain rfl := Option.some_inj.1 h; rfl
      · obtain rfl := Option.some_inj.1 h; rfl
  · simp at h

/-! Part: The encrypt loop as digraph splitting plus per-pair substitution -/

theorem encryptLoop_eq_encryptPairs (t : List Char) (s : List Char) :
    encryptLoop t s = encryptPairs t (splitPairs s) := by
  induction s using splitPairs.induct with
  | case1 => rfl
  | case2 c1 =>
    cases h : Playfair.encrypt_pair t c1 FILLER <;>
      simp [encryptLoop, splitPairs, encryptPairs, h]
  | case3 c2 rest ih =>
    simp [encryptLoop, splitPairs, encryptPairs, ih]
  | case4 c1 c2 rest hc ih =>
    simp [encryptLoop, splitPairs, encryptPairs, hc, ih]

theorem splitPairs_mem_table (t : List Char) (hf : FILLER ∈ t) :
    ∀ s : List Char, (∀ c ∈ s, c ∈ t) → ∀ q ∈ splitPairs s, q.1 ∈ t ∧ q.2 ∈ t := by
  intro s
  induction s using splitPairs.induct with
  | case1 => intro _ q hq; simp [splitPairs] at hq
  | case2 c1 =>
    intro hs q hq
    simp only [splitPairs, List.mem_singleton] at hq
    subst hq
    exact ⟨hs c1 (by simp), hf⟩
  | case3 c2 rest ih =>
    intro hs q hq
    simp only [splitPairs, if_true] at hq
    rcases List.mem_cons.1 hq with rfl | hq
    · exact ⟨hs c2 (by simp), hf⟩
    · exact ih (fun c hcm => hs c (List.mem_cons_of_mem _ hcm)) q hq
  | case4 c1 c2 rest hc ih =>
    intro hs q hq
    simp only [splitPairs] at hq
    rw [if_neg hc] at hq
    rcases List.mem_cons.1 hq with rfl | hq
    · exact ⟨hs c1 (by simp), hs c2 (by simp)⟩
    · exact ih (fun c hcm => hs c (by simp [hcm])) q hq

theorem length_le_two_mul_splitPairs (s : List Char) :
    s.length ≤ 2 * (splitPairs s).length := by
  induction s using splitPairs.induct with
  | case1 => simp [splitPairs]
  | case2 c1 => simp [splitPairs]
  | case3 c2 rest ih =>
    simp only [splitPairs, if_true]
    simp only [List.length_cons] at *
    omega
  | case4 c1 c2 rest hc ih =>
    simp only [splitPairs]
    rw [if_neg hc]
    simp only [List.length_cons] at *
    omega

theorem encryptPairs_length (t : List Char) :
    ∀ (ps : List (Char × Char)) (r : List Char),
      encryptPairs t ps = some r → r.length = 2 * ps.length := by
  intro ps
  induction ps with
  | nil =>
    intro r h
    rw [encryptPairs] at h
    obtain rfl := Option.some_inj.1 h
    rfl
  | cons q ps ih =>
    intro r h
    obtain ⟨a, b⟩ := q
    rw [encryptPairs] at h
    cases hp : Playfair.encrypt_pair t a b with
    | none => rw [hp] at h; simp at h
    | some p =>
      rw [hp] at h
      cases hr : encryptPairs t ps with
      | none => rw [hr] at h; simp at h
      | some r' =>
        rw [hr] at h
        simp only [Option.some_bind, Option.map_some'] at h
        obtain rfl := Option.some_inj.1 h
        have hlp := encrypt_pair_length t a b p hp
        have hlr := ih r' hr
        simp only [List.length_append, List.length_cons, hlp, hlr]
        omega

/-- Applying the per-pair substitution to a list of table-letter digraphs and
then decrypting the concatenation restores exactly the concatenation of the
digraphs. -/
theorem decryptLoop_encryptPairs (t : List Char) (h25 : t.length = 25) (hnd : t.Nodup) :
    ∀ ps : List (Char × Char), (∀ q ∈ ps, q.1 ∈ t ∧ q.2 ∈ t) →
      (encryptPairs t ps).bind (decryptLoop t) = some (joinPairs ps) := by
  intro ps
  induction ps with
  | nil => simp [encryptPairs, decryptLoop, joinPairs]
  | cons q ps ih =>
    intro hmem
    obtain ⟨a, b⟩ := q
    obtain ⟨ha, hb⟩ := hmem (a, b) (List.mem_cons_self _ _)
    obtain ⟨d1, d2, henc, hdec⟩ := encrypt_decrypt_pair t h25 hnd a b ha hb
    have ihx := ih fun q hq => hmem q (List.mem_cons_of_mem _ hq)
    cases hr : encryptPairs t ps with
    | none => rw [hr] at ihx; simp at ihx
    | some r =>
      rw [hr] at ihx
      simp only [Option.some_bind] at ihx
      rw [encryptPairs, henc, hr]
      simp only [Option.some_bind, Option.map_some', List.cons_append, List.nil_append]
      simp only [decryptLoop, hdec, ihx, Option.some_bind, Option.map_some']
      simp [joinPairs]

theorem decryptLoop_odd_none (t : List Char) :
    ∀ s : List Char, s.length % 2 = 1 → decryptLoop t s = none := by
  intro s
  induction s using decryptLoop.induct t with
  | case1 => intro h; simp at h
  | case2 c => intro h; rfl
  | case3 c1 c2 rest ih =>
    intro h
    have hrest : rest.length % 2 = 1 := by
      simp only [List.length_cons] at h
      omega
    cases hp : Playfair.decrypt_pair t c1 c2 <;>
      simp [decryptLoop, hp, ih hrest]

/-! Part: The claims -/

/-- C1: for the cipher instance built from the key "playfair example",
`encrypt` applied to "Hide the gold in the tree stump" returns exactly
"BMODZBXDNABEKUDMUIXMMOUVIF". -/
theorem claim_C1 :
    (Playfair.new "playfair example".toList).encrypt
        "Hide the gold in the tree stump".toList
      = some "BMODZBXDNABEKUDMUIXMMOUVIF".toList := by
  decide

/-- C2: for every key and every plaintext whose normalized forms (uppercased,
spaces removed, J replaced by I) consist only of letters of the reduced
25-letter alphabet, `decrypt` of `encrypt` of the plaintext is exactly the
filler-padded, I/J-merged, space-stripped, uppercased form of the plaintext:
the concatenation of the digraph pairs produced by the splitting rules. -/
theorem claim_C2 (key plain_text : List Char)
    (hkey : ∀ c ∈ normalizeInput key, c ∈ ALPHABET)
    (hpt : ∀ c ∈ normalizeInput plain_text, c ∈ ALPHABET) :
    ((Playfair.new key).encrypt plain_text).bind (Playfair.new key).decrypt
      = some (joinPairs (splitPairs (normalizeInput plain_text))) := by
  obtain ⟨h25, hnd, hmem⟩ := create_table_spec key hkey
  have hf : FILLER ∈ Playfair.create_table key := (hmem FILLER).2 (by decide)
  have hs : ∀ c ∈ normalizeInput plain_text, c ∈ Playfair.create_table key :=
    fun c hc => (hmem c).2 (hpt c hc)
  have hq := splitPairs_mem_table (Playfair.create_table key) hf
    (normalizeInput plain_text) hs
  have hmain := decryptLoop_encryptPairs (Playfair.create_table key) h25 hnd
    (splitPairs (normalizeInput plain_text)) hq
  show (encryptLoop (Playfair.create_table key) (normalizeInput plain_text)).bind
      (decryptLoop (Playfair.create_table key))
    = some (joinPairs (splitPairs (normalizeInput plain_text)))
  rw [encryptLoop_eq_encryptPairs]
  exact hmain

theorem claim_C2_witness :
    ((Playfair.new "playfair example".toList).encrypt
          "Hide the gold in the tree stump".toList).bind
        (Playfair.new "playfair example".toList).decrypt
      = some (joinPairs (splitPairs
          (normalizeInput "Hide the gold in the tree stump".toList))) :=
  claim_C2 _ _ (by decide) (by decide)

/-- C3 counterexample: for the key "1" (whose normalized form is not made of
reduced-alphabet letters) the table keeps the digit and drops the letter Z,
so it does not cover A to Z minus J: the claim fails for this key. -/
theorem claim_C3_counterexample :
    'Z' ∈ ALPHABET ∧ 'Z' ∉ Playfair.create_table "1".toList ∧
      '1' ∈ Playfair.create_table "1".toList := by
  decide

/-- C3 amended: for every key whose normalized form consists only of letters
of the reduced alphabet, the table built by `create_table` is a permutation
of the 25-letter reduced alphabet: exactly 25 distinct letters, no
duplicates, no gaps. -/
theorem claim_C3_amended (key : List Char)
    (hkey : ∀ c ∈ normalizeInput key, c ∈ ALPHABET) :
    (Playfair.create_table key).Perm ALPHABET := by
  obtain ⟨h25, hnd, hmem⟩ := create_table_spec key hkey
  exact (List.perm_ext_iff_of_nodup hnd (by decide)).2 hmem

theorem claim_C3_witness :
    (Playfair.create_table "playfair example".toList).Perm ALPHABET :=
  claim_C3_amended _ (by decide)

/-- C4: in the digraph splitting performed by `encrypt`, a letter equal to
the next unconsumed letter is paired with FILLER and the next letter is not
consumed (it starts the following pair); a single trailing letter is paired
with FILLER; and `encrypt` is exactly the per-pair substitution applied to
the pairs of this splitting of the normalized plaintext. -/
theorem claim_C4 :
    (∀ (c : Char) (rest : List Char),
        splitPairs (c :: c :: rest) = (c, FILLER) :: splitPairs (c :: rest)) ∧
      (∀ c : Char, splitPairs [c] = [(c, FILLER)]) ∧
      ∀ (pf : Playfair) (p : List Char),
        pf.encrypt p = encryptPairs pf.table (splitPairs (normalizeInput p)) := by
  refine ⟨?_, ?_, ?_⟩
  · intro c rest
    simp [splitPairs]
  · intro c
    rfl
  · intro pf p
    exact encryptLoop_eq_encryptPairs pf.table (normalizeInput p)

/-- C5: for a rectangle pair (two table letters sharing neither row nor
column) in the table of a well-formed key, `encrypt_pair` applies the
rectangle formula `(table[row1][col2], table[row2][col1])`, `decrypt_pair`
is the identical formula on that pair, and decrypting the encrypted pair
returns the original pair exactly. -/
theorem claim_C5 (key : List Char) (c1 c2 : Char) (r1 co1 r2 co2 : Nat)
    (hkey : ∀ c ∈ normalizeInput key, c ∈ ALPHABET)
    (h1 : Playfair.get_index (Playfair.create_table key) c1 = some (r1, co1))
    (h2 : Playfair.get_index (Playfair.create_table key) c2 = some (r2, co2))
    (hrow : r1 ≠ r2) (hcol : co1 ≠ co2) :
    Playfair.encrypt_pair (Playfair.create_table key) c1 c2
        = some [tableAt (Playfair.create_table key) r1 co2,
                tableAt (Playfair.create_table key) r2 co1] ∧
      Playfair.decrypt_pair (Playfair.create_table key) c1 c2
        = Playfair.encrypt_pair (Playfair.create_table key) c1 c2 ∧
      Playfair.decrypt_pair (Playfair.create_table key)
          (tableAt (Playfair.create_table key) r1 co2)
          (tableAt (Playfair.create_table key) r2 co1) = some [c1, c2] := by
  obtain ⟨h25, hnd, hmem⟩ := create_table_spec key hkey
  obtain ⟨hr1, hc1, hta⟩ := get_index_eq_some _ c1 r1 co1 h25 h1
  obtain ⟨hr2, hc2, htb⟩ := get_index_eq_some _ c2 r2 co2 h25 h2
  refine ⟨?_, ?_, ?_⟩
  · simp [Playfair.encrypt_pair, h1, h2, hrow, hcol]
  · simp [Playfair.encrypt_pair, Playfair.decrypt_pair, h1, h2, hrow, hcol]
  · have hia := get_index_tableAt _ h25 hnd r1 co2 hr1 hc2
    have hib := get_index_tableAt _ h25 hnd r2 co1 hr2 hc1
    have hcol' : ¬(co2 = co1) := fun h => hcol h.symm
    simp [Playfair.decrypt_pair, hia, hib, hrow, hcol', hta, htb]

theorem claim_C5_witness :
    Playfair.encrypt_pair (Playfair.create_table "playfair example".toList) 'H' 'E'
        = some [tableAt (Playfair.create_table "playfair example".toList) 2 2,
                tableAt (Playfair.create_table "playfair example".toList) 1 4] ∧
      Playfair.decrypt_pair (Playfair.create_table "playfair example".toList) 'H' 'E'
        = Playfair.encrypt_pair (Playfair.create_table "playfair example".toList) 'H' 'E' ∧
      Playfair.decrypt_pair (Playfair.create_table "playfair example".toList)
          (tableAt (Playfair.create_table "playfair example".toList) 2 2)
          (tableAt (Playfair.create_table "playfair example".toList) 1 4)
        = some ['H', 'E'] :=
  claim_C5 _ 'H' 'E' 2 4 1 2 (by decide) (by decide) (by decide) (by decide) (by decide)

/-- C6: for the cipher instance built from the key "playfair example",
`decrypt` applied to "BMODZBXDNABEKUDMUIXMMOUVIF" returns exactly
"HIDETHEGOLDINTHETREXESTUMP", which differs from the original plaintext
because filler insertion and the I/J merge are not reversed. -/
theorem claim_C6 :
    (Playfair.new "playfair example".toList).decrypt
        "BMODZBXDNABEKUDMUIXMMOUVIF".toList
      = some "HIDETHEGOLDINTHETREXESTUMP".toList := by
  decide

/-- C7 counterexample: the input "A B" has length 3 but encrypts (with the
key "playfair example") to "PD" of length 2, so the output length is not
greater than or equal to the input length: space stripping can shrink the
text below the raw input length. -/
theorem claim_C7_counterexample :
    (Playfair.new "playfair example".toList).encrypt "A B".toList
        = some "PD".toList ∧
      ("PD".toList).length < ("A B".toList).length := by
  decide

/-- C7 amended: whenever `encrypt` returns a string, its length is even and
at least the length of the normalized (uppercased, space-stripped, I/J
merged) input; it grows over the normalized input by the inserted fillers. -/
theorem claim_C7_amended (key plain_text r : List Char)
    (h : (Playfair.new key).encrypt plain_text = some r) :
    r.length % 2 = 0 ∧ (normalizeInput plain_text).length ≤ r.length := by
  have hconn : (Playfair.new key).encrypt plain_text
      = encryptPairs (Playfair.create_table key)
          (splitPairs (normalizeInput plain_text)) :=
    encryptLoop_eq_encryptPairs _ _
  rw [hconn] at h
  have hlen := encryptPairs_length _ _ r h
  have hsplit := length_le_two_mul_splitPairs (normalizeInput plain_text)
  constructor
  · omega
  · omega

theorem claim_C7_witness :
    ("BMODZBXDNABEKUDMUIXMMOUVIF".toList).length % 2 = 0 ∧
      (normalizeInput "Hide the gold in the tree stump".toList).length
        ≤ ("BMODZBXDNABEKUDMUIXMMOUVIF".toList).length :=
  claim_C7_amended "playfair example".toList _ _ (by decide)

/-- C8: constructing a cipher from the empty key is not an error and yields
the plain alphabetic table, the 25 letters A to Z minus J in fixed order,
row-major. -/
theorem claim_C8 :
    (Playfair.new []).table = "ABCDEFGHIKLMNOPQRSTUVWXYZ".toList ∧
      (Playfair.new []).table = ALPHABET := by
  decide

/-- C9: on the table of a well-formed key, `get_index` returns `none` (the
fail-fast path modelling the `unreachable!` panic) for any character not in
the table, and for a character in the table it returns that character's
unique row and column. -/
theorem claim_C9 (key : List Char) (c : Char)
    (hkey : ∀ a ∈ normalizeInput key, a ∈ ALPHABET) :
    (c ∉ Playfair.create_table key →
        Playfair.get_index (Playfair.create_table key) c = none) ∧
      (c ∈ Playfair.create_table key →
        ∃ r co, Playfair.get_index (Playfair.create_table key) c = some (r, co) ∧
          r < 5 ∧ co < 5 ∧ tableAt (Playfair.create_table key) r co = c ∧
          ∀ r' co', r' < 5 → co' < 5 →
            tableAt (Playfair.create_table key) r' co' = c → r' = r ∧ co' = co) := by
  obtain ⟨h25, hnd, hmem⟩ := create_table_spec key hkey
  constructor
  · exact fun hc => get_index_none_of_not_mem _ c hc
  · intro hc
    obtain ⟨r, co, hg⟩ := get_index_of_mem _ c hc
    obtain ⟨hr, hco, hta⟩ := get_index_eq_some _ c r co h25 hg
    refine ⟨r, co, hg, hr, hco, hta, ?_⟩
    intro r' co' hr' hco' hta'
    exact tableAt_inj _ h25 hnd r' co' r co hr' hco' hr hco (hta'.trans hta.symm)

theorem claim_C9_witness :
    Playfair.get_index (Playfair.create_table "playfair example".toList) 'J' = none :=
  (claim_C9 _ 'J' (by decide)).1 (by decide)

/-- C10: for every cipher instance and every odd-length ciphertext, `decrypt`
returns no result: the `unwrap` of the missing second letter of the final
pair panics, modelled by `none`; no well-formed-prefix result is returned. -/
theorem claim_C10 (pf : Playfair) (cipher_text : List Char)
    (h : cipher_text.length % 2 = 1) : pf.decrypt cipher_text = none :=
  decryptLoop_odd_none pf.table cipher_text h

theorem claim_C10_witness :
    (Playfair.new "playfair example".toList).decrypt "BMO".toList = none :=
  claim_C10 _ _ (by decide)

end PlayfairRs
